import Mathlib

set_option maxHeartbeats 1000000

/-!
# Verification of `PySpace/Performance.py` and `PySpace/leetcode.py`

Shallow embedding of the two Python source files.  Machine integers are
modelled as `Nat`/`Int` (Python integers are unbounded), byte values as
`Nat` below 256, fallible list indexing as `Option`, and the mutable
`self.results` dictionary as a record of `Option` fields.  Wall-clock
timing fields (`time`, `*_speed_*`) are non-deterministic environment
readings and are omitted from the records; no claim depends on them.
`int(math.sqrt(n))` is modelled as `Nat.sqrt n` (the float `math.sqrt`
agrees with the integer square root on every representable input of the
probe).  I/O faults (a disk write/read raising) are modelled by an
explicit fault parameter threaded through the disk probe.
-/

namespace PySpace

/-! ## `test_cpu_fibonacci` (Performance.py lines 23-36) -/

/-- The inner `fib` of `test_cpu_fibonacci`:
`return x if x <= 1 else fib(x-1) + fib(x-2)`. -/
def fib (x : Nat) : Nat :=
  if x ≤ 1 then x else fib (x - 1) + fib (x - 2)
termination_by x
decreasing_by
  all_goals omega

/-- The record stored under `results['cpu_fibonacci']` (timing omitted). -/
structure FibRecord where
  n : Nat
  result : Nat

/-- `test_cpu_fibonacci(n)`: computes `fib n` and records it. -/
def test_cpu_fibonacci (n : Nat) : FibRecord :=
  { n := n, result := fib n }

/-- The textbook Fibonacci function, `fib(0)=0`, `fib(1)=1`,
`fib(n)=fib(n-1)+fib(n-2)` (the spec's reference definition). -/
def specFib : Nat → Nat
  | 0 => 0
  | 1 => 1
  | n + 2 => specFib n + specFib (n + 1)

/-! ## `test_cpu_prime` (Performance.py lines 38-55) -/

/-- Python list item assignment `s[i] = b`: fails with `IndexError`
when `i` is out of range. -/
def listSet? (s : List Bool) (i : Nat) (b : Bool) : Option (List Bool) :=
  if i < s.length then some (s.set i b) else none

/-- The slice assignment `sieve[i*i : n+1 : i] = [False] * len(...)`:
positions `i*i, i*i+i, ...` up to the end of the list — i.e. exactly the
multiples of `i` that are at least `i*i` — become `False`; slicing never
raises in Python. -/
def sieveMark (s : List Bool) (i : Nat) : List Bool :=
  (List.range s.length).map fun k =>
    if i * i ≤ k ∧ k % i = 0 then false else s.getD k false

/-- The `for i in range(2, int(math.sqrt(n)) + 1)` loop: reads `sieve[i]`
(an `IndexError` if out of range) and, when it is `True`, performs the
slice assignment. -/
def sieveLoop (s : List Bool) (i stop : Nat) : Option (List Bool) :=
  if stop < i then some s
  else
    match s[i]? with
    | none => none
    | some b => sieveLoop (if b then sieveMark s i else s) (i + 1) stop
termination_by stop + 1 - i
decreasing_by
  all_goals omega

/-- `test_cpu_prime(n)`, returning the recorded `prime_count`:
`sieve = [True]*(n+1)`; `sieve[0] = sieve[1] = False` (Python chains the
assignment left to right); the marking loop; `prime_count = sum(sieve)`
(which counts the `True` entries). -/
def test_cpu_prime (n : Nat) : Option Nat :=
  (listSet? (List.replicate (n + 1) true) 0 false).bind fun s1 =>
    (listSet? s1 1 false).bind fun s2 =>
      (sieveLoop s2 2 (Nat.sqrt n)).map fun s3 => s3.count true

/-- The true number of primes `≤ n`. -/
def truePrimeCount (n : Nat) : Nat :=
  (List.range (n + 1)).countP fun k => decide (Nat.Prime k)

/-- The record stored under `results['cpu_prime']` (timing omitted). -/
structure PrimeRecord where
  n : Nat
  prime_count : Nat

/-! ## `test_memory` (Performance.py lines 75-102) -/

/-- The write loop `for i in range(size_bytes): data[i] = i % 256`
(every index is in range for the allocated buffer). -/
def memWrites (m : Nat) (d : List Nat) : List Nat :=
  (List.range m).foldl (fun a i => a.set i (i % 256)) d

/-- The read loop `for i in range(size_bytes): sum_val += data[i]`. -/
def memReads (m : Nat) (d : List Nat) : Nat :=
  (List.range m).foldl (fun acc i => acc + d.getD i 0) 0

/-- The record stored under `results['memory']` (speeds omitted). -/
structure MemRecord where
  size_mb : Nat
  checksum : Nat

/-- `test_memory(size_mb)`: allocates `bytearray(size_bytes)` (zeroes),
runs the write loop, then the read loop, and records the checksum. -/
def test_memory (size_mb : Nat) : MemRecord :=
  { size_mb := size_mb,
    checksum :=
      memReads (size_mb * 1024 * 1024)
        (memWrites (size_mb * 1024 * 1024)
          (List.replicate (size_mb * 1024 * 1024) 0)) }

/-! ## `test_disk` (Performance.py lines 104-145)

The probe's filesystem effects are modelled by tracking whether the
temporary file exists; an I/O exception during the write or the read
phase is modelled by the `fault` parameter.  In the source the
`os.remove(temp_file)` call sits after the `with` block with no
`try/finally`, so an exception raised inside the block propagates
without reaching it. -/

/-- Which phase of `test_disk` raises, when a fault is injected. -/
inductive DiskPhase
  | write
  | read
deriving DecidableEq

/-- Observable outcome of one `test_disk` call. -/
structure DiskOutcome where
  blocksWritten : Nat
  bytesWritten : Nat
  blocksRead : Nat
  tempFileExists : Bool
  completed : Bool

/-- `test_disk(size_mb, block_size_kb)` under an optional injected
fault.  `block_size = block_size_kb * 1024`;
`blocks = (size_mb * 1024 * 1024) // block_size`; the write loop runs
`blocks` iterations of `f.write(data)` with `len(data) = block_size`;
the read loop runs `blocks` iterations of `f.read(block_size)`;
`os.remove` executes only on the exception-free path. -/
def test_disk_run (size_mb block_size_kb : Nat) (fault : Option DiskPhase) :
    DiskOutcome :=
  let block_size := block_size_kb * 1024
  let blocks := size_mb * 1024 * 1024 / block_size
  match fault with
  | some DiskPhase.write =>
      { blocksWritten := 0, bytesWritten := 0, blocksRead := 0,
        tempFileExists := true, completed := false }
  | some DiskPhase.read =>
      { blocksWritten := blocks, bytesWritten := blocks * block_size,
        blocksRead := 0, tempFileExists := true, completed := false }
  | none =>
      { blocksWritten := blocks, bytesWritten := blocks * block_size,
        blocksRead := blocks, tempFileExists := false, completed := true }

/-- The record stored under `results['disk']` (speeds omitted). -/
structure DiskRecord where
  size_mb : Nat
  block_size_kb : Nat

/-! ## `self.results` and the probe steps (Performance.py lines 18-145)

Each method performs its whole computation first and only then executes
the single dictionary assignment `self.results[key] = {...}`; an
exception raised earlier therefore leaves the dictionary untouched. -/

/-- The record stored under `results['cpu_matrix']`
(`matrix_size` is rendered as `f"{size}x{size}"`; the dimension is
recorded). -/
structure MatrixRecord where
  matrix_size : Nat

/-- The `self.results` dictionary: one optional record per probe key. -/
structure Results where
  cpu_fibonacci : Option FibRecord
  cpu_prime : Option PrimeRecord
  cpu_matrix : Option MatrixRecord
  memory : Option MemRecord
  disk : Option DiskRecord

/-- `self.results = {}` in `__init__`. -/
def emptyResults : Results :=
  { cpu_fibonacci := none, cpu_prime := none, cpu_matrix := none,
    memory := none, disk := none }

/-- The five probe keys. -/
inductive ProbeId
  | cpu_fibonacci
  | cpu_prime
  | cpu_matrix
  | memory
  | disk
deriving DecidableEq

/-- `key in self.results`. -/
def hasKey (st : Results) : ProbeId → Bool
  | ProbeId.cpu_fibonacci => st.cpu_fibonacci.isSome
  | ProbeId.cpu_prime => st.cpu_prime.isSome
  | ProbeId.cpu_matrix => st.cpu_matrix.isSome
  | ProbeId.memory => st.memory.isSome
  | ProbeId.disk => st.disk.isSome

/-- `test_cpu_fibonacci` as a step on `self.results` (never raises on a
natural-number argument). -/
def fib_probe (st : Results) (n : Nat) : Results :=
  { st with cpu_fibonacci := some (test_cpu_fibonacci n) }

/-- `test_cpu_prime` as a step on `self.results`; the key is written
only after the sieve succeeds. -/
def prime_probe (st : Results) (n : Nat) : Option Results :=
  (test_cpu_prime n).map fun c =>
    { st with cpu_prime := some { n := n, prime_count := c } }

/-- `test_cpu_matrix` as a step on `self.results` (the `import numpy`
and the multiplication succeed whenever the library is available; its
absence makes the direct call raise `ImportError`, handled by the
caller). -/
def matrix_probe (st : Results) (size : Nat) : Results :=
  { st with cpu_matrix := some { matrix_size := size } }

/-- `test_memory` as a step on `self.results`. -/
def memory_probe (st : Results) (size_mb : Nat) : Results :=
  { st with memory := some (test_memory size_mb) }

/-- `test_disk` as a step on `self.results`: the key is written only
when no exception interrupted the probe. -/
def disk_probe (st : Results) (size_mb block_size_kb : Nat)
    (fault : Option DiskPhase) : Option Results :=
  if (test_disk_run size_mb block_size_kb fault).completed then
    some { st with disk := some { size_mb := size_mb, block_size_kb := block_size_kb } }
  else none

/-- Inputs of a run: the probe arguments (with the script's defaults),
plus the environment facts — whether `numpy` can be imported and
whether an I/O fault hits the disk probe. -/
structure ProbeEnv where
  numpyAvailable : Bool
  fibN : Nat
  primeN : Nat
  matrixSize : Nat
  memMB : Nat
  diskMB : Nat
  diskBlockKB : Nat
  diskFault : Option DiskPhase

/-- One probe invocation on `self.results`: `none` models an exception
propagating out of the method (dictionary untouched, since each method
writes its key last). -/
def runProbe (env : ProbeEnv) (pid : ProbeId) (st : Results) : Option Results :=
  match pid with
  | ProbeId.cpu_fibonacci => some (fib_probe st env.fibN)
  | ProbeId.cpu_prime => prime_probe st env.primeN
  | ProbeId.cpu_matrix =>
      if env.numpyAvailable then some (matrix_probe st env.matrixSize) else none
  | ProbeId.memory => some (memory_probe st env.memMB)
  | ProbeId.disk => disk_probe st env.diskMB env.diskBlockKB env.diskFault

/-- Sequential execution of a list of probes, aborting at the first
exception (as `run_all_tests` does: an uncaught exception ends the run).
Returns the final dictionary and the list of probes that ran to
completion. -/
def runSeq (env : ProbeEnv) : List ProbeId → Results → Results × List ProbeId
  | [], st => (st, [])
  | p :: ps, st =>
      match runProbe env p st with
      | none => (st, [])
      | some st' =>
          let r := runSeq env ps st'
          (r.1, p :: r.2)

/-! ## `get_system_info` and `generate_report` (Performance.py 147-202) -/

/-- The `get_system_info` snapshot (platform-dependent strings are
parameters of the run; `cpu_count`/`memory` likewise). -/
structure SystemInfo where
  os : String
  hostname : String
  python_version : String
  cpu_model : String
  cpu_count : Nat
  memory_total_gb : Nat
  test_time : String

/-- One line of the generated report, one constructor per `report +=`
statement that appends a line (the fixed system-information header and
the closing separator are collapsed into `header`/`footer`; every line
whose presence depends on `self.results` gets its own constructor,
carrying the record fields it interpolates). -/
inductive RLine
  | header (si : SystemInfo)
  | fibLine (n : Nat)
  | primeLine (n : Nat) (prime_count : Nat)
  | matrixLine (matrix_size : Nat)
  | memTitle (size_mb : Nat)
  | memWriteLine
  | memReadLine
  | diskTitle (size_mb block_size_kb : Nat)
  | diskWriteLine
  | diskReadLine
  | footer

/-- Which probe's section a report line belongs to (`none` for the
fixed header/footer). -/
def lineProbe : RLine → Option ProbeId
  | RLine.header _ => none
  | RLine.fibLine _ => some ProbeId.cpu_fibonacci
  | RLine.primeLine _ _ => some ProbeId.cpu_prime
  | RLine.matrixLine _ => some ProbeId.cpu_matrix
  | RLine.memTitle _ => some ProbeId.memory
  | RLine.memWriteLine => some ProbeId.memory
  | RLine.memReadLine => some ProbeId.memory
  | RLine.diskTitle _ _ => some ProbeId.disk
  | RLine.diskWriteLine => some ProbeId.disk
  | RLine.diskReadLine => some ProbeId.disk
  | RLine.footer => none

/-- `generate_report`: the header, then each probe's lines guarded by
`if key in self.results`, then the closing separator. -/
def generate_report (si : SystemInfo) (st : Results) : List RLine :=
  [RLine.header si]
    ++ (match st.cpu_fibonacci with
        | some r => [RLine.fibLine r.n]
        | none => [])
    ++ (match st.cpu_prime with
        | some r => [RLine.primeLine r.n r.prime_count]
        | none => [])
    ++ (match st.cpu_matrix with
        | some r => [RLine.matrixLine r.matrix_size]
        | none => [])
    ++ (match st.memory with
        | some r => [RLine.memTitle r.size_mb, RLine.memWriteLine, RLine.memReadLine]
        | none => [])
    ++ (match st.disk with
        | some r => [RLine.diskTitle r.size_mb r.block_size_kb,
                     RLine.diskWriteLine, RLine.diskReadLine]
        | none => [])
    ++ [RLine.footer]

/-! ## The `__main__` block (Performance.py 241-252) -/

/-- Outcome of running the script: whether the numpy warning was
printed, whether the run finished (report generated and saved), the
final `self.results`, and the report. -/
structure MainOutcome where
  warned : Bool
  finished : Bool
  results : Results
  report : List RLine

/-- The `__main__` flow with the probe arguments made explicit: try
`import numpy`; on failure warn and replace `test_cpu_matrix` by
`lambda: None` (a no-op adding no key); then `run_all_tests()` —
fibonacci, prime, matrix or the no-op, memory, disk — and finally
`generate_report`.  An exception inside a probe aborts the run before
the report is produced. -/
def run_all_probes (si : SystemInfo) (numpyAvailable : Bool)
    (diskFault : Option DiskPhase)
    (fibN primeN matrixSize memMB diskMB diskKB : Nat) : MainOutcome :=
  let st1 := fib_probe emptyResults fibN
  match prime_probe st1 primeN with
  | none => { warned := !numpyAvailable, finished := false, results := st1, report := [] }
  | some st2 =>
      let st3 := if numpyAvailable then matrix_probe st2 matrixSize else st2
      let st4 := memory_probe st3 memMB
      match disk_probe st4 diskMB diskKB diskFault with
      | none => { warned := !numpyAvailable, finished := false, results := st4, report := [] }
      | some st5 =>
          { warned := !numpyAvailable, finished := true, results := st5,
            report := generate_report si st5 }

/-- Running the script: `run_all_tests` uses every probe's default
argument — fibonacci(35), prime(1000000), matrix(2000), memory(1024),
disk(1024, 4). -/
def main_run (si : SystemInfo) (numpyAvailable : Bool)
    (diskFault : Option DiskPhase) : MainOutcome :=
  run_all_probes si numpyAvailable diskFault 35 1000000 2000 1024 1024 4

end PySpace

namespace Leetcode

/-! ## `dailyTemperatures` (leetcode.py lines 6-14)

`answer = [0] * len(temperatures)`; `stack = []`; for each `i` the
`while` loop pops every stacked index whose temperature is below
`temperatures[i]`, writing `answer[popped] = i - popped`, then pushes
`i`.  The Python stack grows at the tail and is inspected at `[-1]`;
it is modelled as a Lean list with the most recent index at the head.
All index accesses are in range (the stack holds indices `< i`), so
`List.getD` reads off the same values the Python indexing does. -/

/-- The inner `while` loop at index `i`. -/
def popLoop (T : List Int) (i : Nat) : List Nat → List Nat → List Nat × List Nat
  | ans, [] => (ans, [])
  | ans, top :: rest =>
      if T.getD top 0 < T.getD i 0 then
        popLoop T i (ans.set top (i - top)) rest
      else
        (ans, top :: rest)

/-- The outer `for i in range(len(temperatures))` loop. -/
def dtGo (T : List Int) (i : Nat) (ans stack : List Nat) : List Nat :=
  if h : i < T.length then
    let p := popLoop T i ans stack
    dtGo T (i + 1) p.1 (i :: p.2)
  else ans
termination_by T.length - i
decreasing_by
  all_goals omega

/-- `dailyTemperatures(temperatures)`. -/
def dailyTemperatures (T : List Int) : List Nat :=
  dtGo T 0 (List.replicate T.length 0) []

end Leetcode

/-! ## Generic list helpers -/

namespace PySpace

/-- A left fold of point writes keeps the length. -/
theorem foldl_set_length (f : Nat → Nat) (L : List Nat) (a : List Nat) :
    (L.foldl (fun d k => d.set k (f k)) a).length = a.length := by
  induction L generalizing a with
  | nil => rfl
  | cons k L ih => simp [List.foldl_cons, ih]

/-- A left fold of point writes, read back at an in-range position:
positions in `L` hold their written value, the rest are untouched. -/
theorem foldl_set_getD (f : Nat → Nat) (L : List Nat) (a : List Nat) (m : Nat)
    (hm : m < a.length) :
    (L.foldl (fun d k => d.set k (f k)) a).getD m 0 =
      if m ∈ L then f m else a.getD m 0 := by
  induction L generalizing a with
  | nil => simp
  | cons k L ih =>
    simp only [List.foldl_cons]
    rw [ih (a.set k (f k)) (by simpa using hm)]
    by_cases hmL : m ∈ L
    · simp [hmL]
    · by_cases hk : m = k
      · subst hk
        simp [hmL, List.getD_eq_getElem?_getD, List.getElem?_set, hm]
      · have hmkL : m ∉ k :: L := by simp [List.mem_cons, hk, hmL]
        rw [if_neg hmL, if_neg hmkL, List.getD_eq_getElem?_getD,
          List.getD_eq_getElem?_getD, List.getElem?_set,
          if_neg (fun h => hk h.symm)]

/-- Head of the filtered range: the least index below `len` satisfying
`q`, when all smaller indices fail it. -/
theorem head_filter_range (q : Nat → Bool) (j : Nat)
    (hq : q j = true) (hbelow : ∀ m, m < j → q m = false) :
    ∀ len, j < len → ((List.range len).filter q).head? = some j := by
  intro len
  induction len with
  | zero => omega
  | succ len ih =>
    intro hj
    rw [List.range_succ, List.filter_append]
    by_cases hjl : j < len
    · rw [List.head?_append, ih hjl]
      rfl
    · have hj' : j = len := by omega
      have hnil : (List.range len).filter q = [] := by
        rw [List.filter_eq_nil_iff]
        intro a ha
        simp only [List.mem_range] at ha
        simp [hbelow a (by omega)]
      rw [hnil, List.nil_append, ← hj']
      simp [hq]

end PySpace

/-! ## C2: the fibonacci probe -/

namespace PySpace

/-- The source's `fib` agrees with the textbook recursion. -/
theorem fib_eq_specFib (n : Nat) : fib n = specFib n := by
  induction n using Nat.strong_induction_on with
  | _ n ih =>
    match n with
    | 0 => rw [fib]; simp [specFib]
    | 1 => rw [fib]; simp [specFib]
    | n + 2 =>
      rw [fib, if_neg (by omega)]
      have h1 : n + 2 - 1 = n + 1 := by omega
      have h2 : n + 2 - 2 = n := by omega
      rw [h1, h2, ih (n + 1) (by omega), ih n (by omega), specFib]
      omega

/-- C2: for every `n ≥ 0`, the value recorded by `test_cpu_fibonacci(n)`
as `result` equals the standard recursive Fibonacci function with
`fib(0)=0`, `fib(1)=1`, `fib(n)=fib(n-1)+fib(n-2)`. -/
theorem test_cpu_fibonacci_result_eq_specFib (n : Nat) :
    (test_cpu_fibonacci n).result = specFib n :=
  fib_eq_specFib n

/-! ## C3: the memory probe checksum -/

/-- Every in-range cell of the written buffer holds `i % 256`. -/
theorem memWrites_getD (m : Nat) (d : List Nat) (k : Nat) (hk : k < d.length) :
    (memWrites m d).getD k 0 = if k < m then k % 256 else d.getD k 0 := by
  unfold memWrites
  rw [foldl_set_getD (fun i => i % 256) (List.range m) d k hk]
  simp [List.mem_range]

/-- The read loop sums the function the buffer holds. -/
theorem memReads_eq_sum (f : Nat → Nat) (m : Nat) (l : List Nat)
    (h : ∀ i, i < m → l.getD i 0 = f i) :
    memReads m l = ((List.range m).map f).sum := by
  induction m with
  | zero => rfl
  | succ m ih =>
    unfold memReads at *
    rw [List.range_succ, List.foldl_append, List.map_append, List.sum_append]
    simp only [List.foldl_cons, List.foldl_nil, List.map_cons, List.map_nil,
      List.sum_cons, List.sum_nil]
    rw [ih (fun i hi => h i (by omega)), h m (by omega)]
    omega

/-- C3: for every `size_mb ≥ 1`, the checksum recorded by
`test_memory(size_mb)` equals `sum(i % 256 for i in range(size_bytes))`
with `size_bytes = size_mb * 1024 * 1024`; it is computed from the
buffer alone, independent of the measured timings. -/
theorem test_memory_checksum_eq_sum (size_mb : Nat) (h : 1 ≤ size_mb) :
    (test_memory size_mb).checksum =
      ((List.range (size_mb * 1024 * 1024)).map (fun i => i % 256)).sum := by
  unfold test_memory
  exact memReads_eq_sum (fun i => i % 256) (size_mb * 1024 * 1024) _
    (fun i hi => by
      rw [memWrites_getD _ _ _ (by simpa using hi)]
      simp [hi])

/-- Witness for C3 at `size_mb = 1`. -/
theorem test_memory_checksum_witness :
    1 ≤ 1 ∧ (test_memory 1).checksum =
      ((List.range (1 * 1024 * 1024)).map (fun i => i % 256)).sum :=
  ⟨by decide, test_memory_checksum_eq_sum 1 (by decide)⟩

end PySpace

/-! ## C4 and C5: the disk probe -/

namespace PySpace

/-- C4 counterexample: when an exception interrupts the write phase,
`os.remove` (which sits after the `with` block, outside any
`try/finally`) is never reached, so the temporary file survives. -/
theorem test_disk_file_survives_write_fault :
    (test_disk_run 1024 4 (some DiskPhase.write)).tempFileExists = true := rfl

/-- C4 amended: the temporary file is gone after `test_disk` exactly
when the probe ran without an exception; a fault in the write or read
phase leaves the file behind. -/
theorem test_disk_tempfile_deleted_iff_no_fault
    (size_mb block_size_kb : Nat) (fault : Option DiskPhase) :
    (test_disk_run size_mb block_size_kb fault).tempFileExists = false ↔
      fault = none := by
  cases fault with
  | none => simp [test_disk_run]
  | some ph => cases ph <;> simp [test_disk_run]

/-- C5 counterexample: with `size_mb = 1` and `block_size_kb = 3` the
integer division `(1*1024*1024) // 3072 = 341` makes the probe write
`341 * 3072 = 1047552` bytes, not the full megabyte. -/
theorem test_disk_bytes_not_always_exact :
    ¬ (test_disk_run 1 3 none).bytesWritten = 1 * 1024 * 1024 := by
  simp only [test_disk_run]
  decide

/-- C5 amended: `test_disk(size_mb, block_size_kb)` writes
`blocks = (size_mb*1024*1024) // (block_size_kb*1024)` blocks of
`block_size_kb` kilobytes — exactly `size_mb` megabytes when
`block_size_kb` divides `size_mb * 1024` (so in particular for the
default 4 KB blocks) — and reads back exactly the number of blocks it
wrote. -/
theorem test_disk_blocks_written_read
    (size_mb block_size_kb : Nat) (h1 : 1 ≤ size_mb) (h2 : 1 ≤ block_size_kb) :
    (test_disk_run size_mb block_size_kb none).blocksWritten =
        size_mb * 1024 * 1024 / (block_size_kb * 1024) ∧
    (test_disk_run size_mb block_size_kb none).bytesWritten =
        (test_disk_run size_mb block_size_kb none).blocksWritten *
          (block_size_kb * 1024) ∧
    (test_disk_run size_mb block_size_kb none).blocksRead =
        (test_disk_run size_mb block_size_kb none).blocksWritten ∧
    (block_size_kb ∣ size_mb * 1024 →
      (test_disk_run size_mb block_size_kb none).bytesWritten =
        size_mb * 1024 * 1024) := by
  refine ⟨rfl, rfl, rfl, fun hdvd => ?_⟩
  have hdvd' : block_size_kb * 1024 ∣ size_mb * 1024 * 1024 := by
    obtain ⟨c, hc⟩ := hdvd
    exact ⟨c, by rw [hc]; ring⟩
  simpa [test_disk_run] using Nat.div_mul_cancel hdvd'

/-- Witness for C5 (amended) at the default geometry `(1024, 4)`. -/
theorem test_disk_blocks_written_read_witness :
    (test_disk_run 1024 4 none).blocksRead =
      (test_disk_run 1024 4 none).blocksWritten ∧
    (test_disk_run 1024 4 none).bytesWritten = 1024 * 1024 * 1024 :=
  ⟨(test_disk_blocks_written_read 1024 4 (by decide) (by decide)).2.2.1,
   (test_disk_blocks_written_read 1024 4 (by decide) (by decide)).2.2.2
     (by decide)⟩

/-! ## C6: the results mapping invariant -/

/-- One successful probe adds exactly its own key. -/
theorem runProbe_hasKey (env : ProbeEnv) (pid : ProbeId) (st st' : Results)
    (h : runProbe env pid st = some st') (q : ProbeId) :
    hasKey st' q = (hasKey st q || decide (q = pid)) := by
  cases pid with
  | cpu_fibonacci =>
      simp only [runProbe, Option.some.injEq] at h
      subst h
      cases q <;> simp [hasKey, fib_probe]
  | cpu_prime =>
      simp only [runProbe, prime_probe, Option.map_eq_some'] at h
      obtain ⟨c, _, rfl⟩ := h
      cases q <;> simp [hasKey]
  | cpu_matrix =>
      by_cases hnp : env.numpyAvailable
      · simp only [runProbe, hnp, if_true, Option.some.injEq] at h
        subst h
        cases q <;> simp [hasKey, matrix_probe]
      · simp [runProbe, hnp] at h
  | memory =>
      simp only [runProbe, Option.some.injEq] at h
      subst h
      cases q <;> simp [hasKey, memory_probe]
  | disk =>
      simp only [runProbe, disk_probe] at h
      by_cases hc : (test_disk_run env.diskMB env.diskBlockKB env.diskFault).completed
      · simp only [hc, if_true, Option.some.injEq] at h
        subst h
        cases q <;> simp [hasKey]
      · simp [hc] at h

/-- `runSeq` on a failing head probe. -/
theorem runSeq_cons_none (env : ProbeEnv) (p : ProbeId) (ps : List ProbeId)
    (st : Results) (hp : runProbe env p st = none) :
    runSeq env (p :: ps) st = (st, []) := by
  simp [runSeq, hp]

/-- `runSeq` on a succeeding head probe. -/
theorem runSeq_cons_some (env : ProbeEnv) (p : ProbeId) (ps : List ProbeId)
    (st st' : Results) (hp : runProbe env p st = some st') :
    runSeq env (p :: ps) st =
      ((runSeq env ps st').1, p :: (runSeq env ps st').2) := by
  simp [runSeq, hp]

/-- Keys after a (possibly aborted) run: the keys already present plus
the keys of the probes that completed. -/
theorem runSeq_hasKey (env : ProbeEnv) :
    ∀ (ps : List ProbeId) (st : Results) (q : ProbeId),
      hasKey (runSeq env ps st).1 q =
        (hasKey st q || decide (q ∈ (runSeq env ps st).2)) := by
  intro ps
  induction ps with
  | nil => intro st q; simp [runSeq]
  | cons p ps ih =>
      intro st q
      cases hp : runProbe env p st with
      | none => rw [runSeq_cons_none env p ps st hp]; simp
      | some st' =>
          rw [runSeq_cons_some env p ps st st' hp]
          simp only [List.mem_cons]
          rw [ih st' q, runProbe_hasKey env p st st' hp q]
          by_cases hqp : q = p <;> by_cases hmem : q ∈ (runSeq env ps st').2 <;>
            simp [hqp, hmem]

/-- C6: starting from the empty dictionary, a probe's key is in
`self.results` iff that probe ran to completion without error; and no
probe ever removes a key that is present. -/
theorem results_key_iff_completed (env : ProbeEnv) (ps : List ProbeId) :
    (∀ pid, hasKey (runSeq env ps emptyResults).1 pid = true ↔
        pid ∈ (runSeq env ps emptyResults).2) ∧
    (∀ st q, hasKey st q = true → hasKey (runSeq env ps st).1 q = true) := by
  constructor
  · intro pid
    rw [runSeq_hasKey env ps emptyResults pid]
    cases pid <;> simp [hasKey, emptyResults]
  · intro st q hq
    rw [runSeq_hasKey env ps st q, hq]
    simp

/-- Witness for C6: a key present before a run is still present after
it. -/
theorem results_key_iff_completed_witness :
    hasKey (runSeq ⟨true, 1, 1, 1, 1, 1, 1, none⟩ [ProbeId.memory]
      (fib_probe emptyResults 5)).1 ProbeId.cpu_fibonacci = true :=
  (results_key_iff_completed ⟨true, 1, 1, 1, 1, 1, 1, none⟩
    [ProbeId.memory]).2 (fib_probe emptyResults 5) ProbeId.cpu_fibonacci rfl

end PySpace

/-! ## C7: the report generator -/

namespace PySpace

/-- C7: a results mapping holding only `cpu_prime` renders exactly one
probe-metrics line, the prime line, and no section of any other probe;
in general a probe's section lines appear in the report iff its key is
present in the results mapping. -/
theorem generate_report_sections :
    (∀ (si : SystemInfo) (n c : Nat),
      (generate_report si
          { cpu_fibonacci := none, cpu_prime := some { n := n, prime_count := c },
            cpu_matrix := none, memory := none, disk := none }).filterMap
        lineProbe = [ProbeId.cpu_prime]) ∧
    (∀ (si : SystemInfo) (st : Results) (pid : ProbeId),
      pid ∈ (generate_report si st).filterMap lineProbe ↔ hasKey st pid = true) := by
  constructor
  · intro si n c
    rfl
  · intro si st pid
    obtain ⟨f, p, mx, me, d⟩ := st
    cases f <;> cases p <;> cases mx <;> cases me <;> cases d <;> cases pid <;>
      simp [generate_report, lineProbe, hasKey, List.filterMap_append]

end PySpace

/-! ## The sieve: correctness of `test_cpu_prime` (C1, C10) -/

namespace PySpace

/-- Marking keeps the sieve's length. -/
theorem sieveMark_length (s : List Bool) (i : Nat) :
    (sieveMark s i).length = s.length := by
  simp [sieveMark]

/-- Pointwise description of one marking pass: cells at multiples of
`i` from `i*i` on become `False`, every other cell is untouched. -/
theorem sieveMark_getD (s : List Bool) (i k : Nat) (hk : k < s.length) :
    (sieveMark s i).getD k false =
      if i * i ≤ k ∧ k % i = 0 then false else s.getD k false := by
  unfold sieveMark
  rw [List.getD_eq_getElem?_getD, List.getElem?_map, List.getElem?_range hk]
  rfl

/-- The marking loop never raises when `stop` is within the sieve. -/
theorem sieveLoop_total : ∀ (d i : Nat) (s : List Bool) (stop : Nat),
    stop + 1 - i ≤ d → stop < s.length →
    ∃ t, sieveLoop s i stop = some t ∧ t.length = s.length := by
  intro d
  induction d with
  | zero =>
      intro i s stop hd hs
      rw [sieveLoop, if_pos (by omega)]
      exact ⟨s, rfl, rfl⟩
  | succ d ih =>
      intro i s stop hd hs
      by_cases hstop : stop < i
      · rw [sieveLoop, if_pos hstop]
        exact ⟨s, rfl, rfl⟩
      · have hi : i < s.length := by omega
        have hlen : (if s[i] then sieveMark s i else s).length = s.length := by
          split
          · simp [sieveMark_length]
          · rfl
        obtain ⟨t, ht, htl⟩ := ih (i + 1) (if s[i] then sieveMark s i else s)
          stop (by omega) (by omega)
        refine ⟨t, ?_, by omega⟩
        rw [sieveLoop, if_neg hstop, List.getElem?_eq_getElem hi]
        exact ht

/-- One step of the marking loop, in closed form. -/
theorem sieveLoop_step (s : List Bool) (i stop : Nat) (hstop : ¬ stop < i)
    (hi : i < s.length) :
    sieveLoop s i stop =
      sieveLoop (if s[i] then sieveMark s i else s) (i + 1) stop := by
  rw [sieveLoop, if_neg hstop, List.getElem?_eq_getElem hi]

/-- A cell `i ≥ 2` survives all markings by smaller indices exactly
when `i` is prime. -/
theorem sieve_cond_self_iff_prime (i : Nat) (h2 : 2 ≤ i) :
    (2 ≤ i ∧ ∀ p, p < i → Nat.Prime p → p ∣ i → ¬ (p * p ≤ i)) ↔
      Nat.Prime i := by
  constructor
  · rintro ⟨-, hall⟩
    by_contra hnp
    have hp := Nat.minFac_prime (show i ≠ 1 by omega)
    have hd := Nat.minFac_dvd i
    have hsq : i.minFac * i.minFac ≤ i := by
      have := Nat.minFac_sq_le_self (show 0 < i by omega) hnp
      rwa [pow_two] at this
    have hlt : i.minFac < i := by
      have hle := Nat.minFac_le (show 0 < i by omega)
      rcases Nat.lt_or_ge i.minFac i with h | h
      · exact h
      · have heq : i.minFac = i := by omega
        rw [heq] at hp
        exact absurd hp hnp
    exact hall _ hlt hp hd hsq
  · intro hp
    refine ⟨hp.two_le, fun p hlt hpp hdvd hsq => ?_⟩
    rcases hp.eq_one_or_self_of_dvd p hdvd with h1 | hself
    · rw [h1] at hpp
      exact absurd hpp Nat.not_prime_one
    · omega

/-- The survival condition after the whole loop (all indices up to
`⌊√n⌋` processed) is primality, for cells `≤ n`. -/
theorem sieve_cond_final_iff_prime (n k : Nat) (hk : k ≤ n) :
    (2 ≤ k ∧ ∀ p, p < Nat.sqrt n + 1 → Nat.Prime p → p ∣ k → ¬ (p * p ≤ k)) ↔
      Nat.Prime k := by
  constructor
  · rintro ⟨hk2, hall⟩
    by_contra hnp
    have hp := Nat.minFac_prime (show k ≠ 1 by omega)
    have hd := Nat.minFac_dvd k
    have hsq : k.minFac * k.minFac ≤ k := by
      have := Nat.minFac_sq_le_self (show 0 < k by omega) hnp
      rwa [pow_two] at this
    have hps : k.minFac ≤ Nat.sqrt n := Nat.le_sqrt.mpr (le_trans hsq hk)
    exact hall _ (by omega) hp hd hsq
  · intro hkp
    refine ⟨hkp.two_le, fun p hlt hpp hdvd hsq => ?_⟩
    rcases hkp.eq_one_or_self_of_dvd p hdvd with h1 | hself
    · rw [h1] at hpp
      exact absurd hpp Nat.not_prime_one
    · subst hself
      have h2 := hpp.two_le
      nlinarith

/-- Invariant of the marking loop: having processed indices
`2, ..., i-1`, a cell `k ≤ n` is `True` iff `k ≥ 2` and no prime below
`i` whose square is at most `k` divides `k`. -/
theorem sieveLoop_inv (n stop : Nat) (hstopn : stop ≤ n) :
    ∀ (d i : Nat) (s : List Bool), stop + 1 - i ≤ d → 2 ≤ i → i ≤ stop + 1 →
    s.length = n + 1 →
    (∀ k, k ≤ n → (s.getD k false = true ↔
      (2 ≤ k ∧ ∀ p, p < i → Nat.Prime p → p ∣ k → ¬ (p * p ≤ k)))) →
    ∃ t, sieveLoop s i stop = some t ∧ t.length = n + 1 ∧
      (∀ k, k ≤ n → (t.getD k false = true ↔
        (2 ≤ k ∧ ∀ p, p < stop + 1 → Nat.Prime p → p ∣ k → ¬ (p * p ≤ k)))) := by
  intro d
  induction d with
  | zero =>
      intro i s hd h2 hle hlen hinv
      have hi : i = stop + 1 := by omega
      subst hi
      rw [sieveLoop, if_pos (by omega)]
      exact ⟨s, rfl, hlen, hinv⟩
  | succ d ih =>
      intro i s hd h2 hle hlen hinv
      by_cases hstop : stop < i
      · have hi : i = stop + 1 := by omega
        subst hi
        rw [sieveLoop, if_pos (by omega)]
        exact ⟨s, rfl, hlen, hinv⟩
      · have hi : i < s.length := by omega
        have hgetD : s.getD i false = s[i] := by
          rw [List.getD_eq_getElem?_getD, List.getElem?_eq_getElem hi]
          rfl
        have hsi : (s[i] = true) ↔ Nat.Prime i := by
          rw [← hgetD, hinv i (by omega)]
          exact sieve_cond_self_iff_prime i h2
        rw [sieveLoop_step s i stop hstop hi]
        by_cases hb : s[i] = true
        · have hip : Nat.Prime i := hsi.mp hb
          rw [if_pos hb]
          apply ih (i + 1) (sieveMark s i) (by omega) (by omega) (by omega)
            (by rw [sieveMark_length]; exact hlen)
          intro k hk
          rw [sieveMark_getD s i k (by omega)]
          by_cases hm : i * i ≤ k ∧ k % i = 0
          · rw [if_pos hm]
            simp only [Bool.false_eq_true, false_iff]
            rintro ⟨-, hall⟩
            exact hall i (by omega) hip (Nat.dvd_of_mod_eq_zero hm.2) hm.1
          · rw [if_neg hm, hinv k hk]
            constructor
            · rintro ⟨hk2, hall⟩
              refine ⟨hk2, fun p hp hpp hdvd hsq => ?_⟩
              rcases Nat.lt_or_ge p i with hpi | hpi
              · exact hall p hpi hpp hdvd hsq
              · have hpi' : p = i := by omega
                subst hpi'
                exact hm ⟨hsq, Nat.mod_eq_zero_of_dvd hdvd⟩
            · rintro ⟨hk2, hall⟩
              exact ⟨hk2, fun p hp hpp hdvd hsq => hall p (by omega) hpp hdvd hsq⟩
        · have hnip : ¬ Nat.Prime i := fun hp => hb (hsi.mpr hp)
          rw [if_neg hb]
          apply ih (i + 1) s (by omega) (by omega) (by omega) hlen
          intro k hk
          rw [hinv k hk]
          constructor
          · rintro ⟨hk2, hall⟩
            refine ⟨hk2, fun p hp hpp hdvd hsq => ?_⟩
            rcases Nat.lt_or_ge p i with hpi | hpi
            · exact hall p hpi hpp hdvd hsq
            · have hpi' : p = i := by omega
              subst hpi'
              exact absurd hpp hnip
          · rintro ⟨hk2, hall⟩
            exact ⟨hk2, fun p hp hpp hdvd hsq => hall p (by omega) hpp hdvd hsq⟩

end PySpace

namespace PySpace

/-- The freshly initialised sieve after `sieve[0] = sieve[1] = False`:
`True` exactly from position 2 on. -/
theorem sieve_base_getD (n k : Nat) (hk : k ≤ n) :
    (((List.replicate (n + 1) true).set 0 false).set 1 false).getD k false =
      true ↔ 2 ≤ k := by
  rw [List.getD_eq_getElem?_getD, List.getElem?_set, List.getElem?_set]
  rcases Nat.lt_or_ge k 2 with hk2 | hk2
  · have : k = 0 ∨ k = 1 := by omega
    rcases this with rfl | rfl
    · simp
    · have hn : 0 < n := by omega
      simp [hn]
  · rw [if_neg (by omega), if_neg (by omega),
      List.getElem?_replicate_of_lt (by omega)]
    simp [hk2]

/-- Unfolding `test_cpu_prime` past the two initial assignments (both
in range once `n ≥ 1`). -/
theorem test_cpu_prime_eq_loop (n : Nat) (hn : 1 ≤ n) :
    test_cpu_prime n =
      (sieveLoop (((List.replicate (n + 1) true).set 0 false).set 1 false) 2
        (Nat.sqrt n)).map (fun s3 => s3.count true) := by
  unfold test_cpu_prime
  rw [show listSet? (List.replicate (n + 1) true) 0 false
      = some ((List.replicate (n + 1) true).set 0 false) from by
    unfold listSet?
    rw [if_pos (by simp)]]
  rw [Option.some_bind]
  rw [show listSet? ((List.replicate (n + 1) true).set 0 false) 1 false
      = some (((List.replicate (n + 1) true).set 0 false).set 1 false) from by
    unfold listSet?
    rw [if_pos (by simp only [List.length_set, List.length_replicate]; omega)]]
  rw [Option.some_bind]

/-- The number of `True` cells of a sieve that marks exactly the primes
`≤ n` is the prime count. -/
theorem sieve_count_eq (t : List Bool) (n : Nat) (hlen : t.length = n + 1)
    (hpt : ∀ k, k ≤ n → (t.getD k false = true ↔ Nat.Prime k)) :
    t.count true = truePrimeCount n := by
  have ht : t = (List.range (n + 1)).map (fun k => decide (Nat.Prime k)) := by
    apply List.ext_getElem (by simp [hlen])
    intro m h1 h2
    have hm : m ≤ n := by omega
    have hgd : t.getD m false = t[m] := by
      rw [List.getD_eq_getElem?_getD, List.getElem?_eq_getElem h1]
      rfl
    rw [List.getElem_map, List.getElem_range]
    by_cases hpm : Nat.Prime m
    · have hv : t.getD m false = true := (hpt m hm).mpr hpm
      rw [hgd] at hv
      simp [hv, hpm]
    · have hv : ¬ t.getD m false = true := fun h => hpm ((hpt m hm).mp h)
      rw [hgd] at hv
      have hf : t[m] = false := by
        cases hcase : t[m]
        · rfl
        · exact absurd hcase hv
      simp [hf, hpm]
  rw [ht]
  unfold truePrimeCount
  rw [List.count_eq_countP, List.countP_map]
  congr 1
  funext k
  simp

/-- C1: for every `n ≥ 2` the prime count recorded by
`test_cpu_prime(n)` equals the true number of primes `≤ n` (so in
particular `n = 100` records 25), and each marking pass sets to `False`
exactly the multiples of the discovered index starting at its square,
leaving every other cell unchanged. -/
theorem test_cpu_prime_correct :
    (∀ n, 2 ≤ n → test_cpu_prime n = some (truePrimeCount n)) ∧
    (∀ (s : List Bool) (i k : Nat), k < s.length →
      (sieveMark s i).getD k false =
        if i * i ≤ k ∧ k % i = 0 then false else s.getD k false) := by
  refine ⟨?_, fun s i k hk => sieveMark_getD s i k hk⟩
  intro n hn
  rw [test_cpu_prime_eq_loop n (by omega)]
  have hsqrt1 : 1 ≤ Nat.sqrt n := Nat.le_sqrt.mpr (by omega)
  obtain ⟨t, ht, htl, htc⟩ := sieveLoop_inv n (Nat.sqrt n) (Nat.sqrt_le_self n)
    (Nat.sqrt n + 1 - 2) 2
    (((List.replicate (n + 1) true).set 0 false).set 1 false)
    (by omega) (by omega) (by omega)
    (by simp)
    (by
      intro k hk
      rw [sieve_base_getD n k hk]
      constructor
      · intro h2
        refine ⟨h2, fun p hp hpp _ _ => ?_⟩
        have : p = 0 ∨ p = 1 := by omega
        rcases this with rfl | rfl
        · exact absurd hpp Nat.not_prime_zero
        · exact absurd hpp Nat.not_prime_one
      · exact fun h => h.1)
  rw [ht, Option.map_some']
  congr 1
  exact sieve_count_eq t n htl fun k hk => by
    rw [htc k hk]
    exact sieve_cond_final_iff_prime n k hk

/-- Witness for C1: `test_cpu_prime(100)` records 25 primes. -/
theorem test_cpu_prime_correct_witness : test_cpu_prime 100 = some 25 := by
  rw [test_cpu_prime_correct.1 100 (by decide)]
  decide

end PySpace

namespace PySpace

/-- For `n ≥ 1` the whole prime probe runs without an `IndexError`. -/
theorem test_cpu_prime_total (n : Nat) (hn : 1 ≤ n) :
    ∃ c, test_cpu_prime n = some c := by
  rw [test_cpu_prime_eq_loop n hn]
  obtain ⟨t, ht, -⟩ := sieveLoop_total (Nat.sqrt n + 1 - 2) 2
    (((List.replicate (n + 1) true).set 0 false).set 1 false) (Nat.sqrt n)
    (by omega)
    (by
      simp only [List.length_set, List.length_replicate]
      exact Nat.lt_succ_of_le (Nat.sqrt_le_self n))
  exact ⟨t.count true, by rw [ht, Option.map_some']⟩

/-- C10: `test_cpu_prime` performs only in-bounds sieve accesses for
every `n ≥ 1`; for `n = 0` the chained assignment
`sieve[0] = sieve[1] = False` first rewrites cell 0 of the length-1
list and then fails with an out-of-range write at index 1, so the probe
raises before recording any result. -/
theorem test_cpu_prime_inbounds :
    (∀ n, 1 ≤ n → ∃ c, test_cpu_prime n = some c) ∧
    test_cpu_prime 0 = none ∧
    listSet? ((List.replicate 1 true).set 0 false) 1 false = none ∧
    (∀ st : Results, prime_probe st 0 = none) :=
  ⟨fun n hn => test_cpu_prime_total n hn, rfl, rfl, fun _ => rfl⟩

/-- Witness for C10 at `n = 17`. -/
theorem test_cpu_prime_inbounds_witness :
    ∃ c, test_cpu_prime 17 = some c :=
  test_cpu_prime_inbounds.1 17 (by decide)

/-! ## C8: the `__main__` flow without numpy -/

/-- With numpy missing, no disk fault and a succeeding prime probe,
the parameterised run warns, completes, collects every key except
`cpu_matrix`, and reports the final results. -/
theorem run_all_probes_numpy_missing (si : SystemInfo)
    (fibN primeN matrixSize memMB diskMB diskKB c : Nat)
    (hc : test_cpu_prime primeN = some c) :
    run_all_probes si false none fibN primeN matrixSize memMB diskMB diskKB =
      { warned := true, finished := true,
        results :=
          { cpu_fibonacci := some (test_cpu_fibonacci fibN),
            cpu_prime := some { n := primeN, prime_count := c },
            cpu_matrix := none,
            memory := some (test_memory memMB),
            disk := some { size_mb := diskMB, block_size_kb := diskKB } },
        report := generate_report si
          { cpu_fibonacci := some (test_cpu_fibonacci fibN),
            cpu_prime := some { n := primeN, prime_count := c },
            cpu_matrix := none,
            memory := some (test_memory memMB),
            disk := some { size_mb := diskMB, block_size_kb := diskKB } } } := by
  rw [run_all_probes]
  simp only [prime_probe, hc, Option.map_some']
  simp [fib_probe, emptyResults, matrix_probe, memory_probe, disk_probe,
    test_disk_run]

/-- C8: with numpy unavailable the script still completes: the warning
is printed, the matrix probe is skipped, `cpu_matrix` stays out of the
results mapping, every other probe records its key, and the report is
generated from the final results (no disk fault injected). -/
theorem main_run_numpy_missing (si : SystemInfo) :
    (main_run si false none).warned = true ∧
    (main_run si false none).finished = true ∧
    hasKey (main_run si false none).results ProbeId.cpu_matrix = false ∧
    hasKey (main_run si false none).results ProbeId.cpu_fibonacci = true ∧
    hasKey (main_run si false none).results ProbeId.cpu_prime = true ∧
    hasKey (main_run si false none).results ProbeId.memory = true ∧
    hasKey (main_run si false none).results ProbeId.disk = true ∧
    (main_run si false none).report =
      generate_report si (main_run si false none).results := by
  obtain ⟨c, hc⟩ := test_cpu_prime_total 1000000 (by omega)
  have hmr : main_run si false none =
      run_all_probes si false none 35 1000000 2000 1024 1024 4 := rfl
  rw [hmr, run_all_probes_numpy_missing si 35 1000000 2000 1024 1024 4 c hc]
  exact ⟨rfl, rfl, rfl, rfl, rfl, rfl, rfl, rfl⟩

end PySpace

/-! ## C9: correctness of `dailyTemperatures` -/

namespace Leetcode

/-- The pop condition of the `while` loop at step `i`. -/
def popCond (T : List Int) (i k : Nat) : Bool :=
  decide (T.getD k 0 < T.getD i 0)

/-- Closed form of the `while` loop: it writes `i - k` into `answer`
for the popped prefix of the stack and keeps the remaining suffix. -/
theorem popLoop_eq (T : List Int) (i : Nat) :
    ∀ (st ans : List Nat),
      popLoop T i ans st =
        ((st.takeWhile (popCond T i)).foldl (fun a k => a.set k (i - k)) ans,
         st.dropWhile (popCond T i)) := by
  intro st
  induction st with
  | nil => intro ans; rfl
  | cons top rest ih =>
      intro ans
      by_cases h : T.getD top 0 < T.getD i 0
      · have hp : popCond T i top = true := decide_eq_true h
        rw [popLoop, if_pos h, ih, List.takeWhile_cons, List.dropWhile_cons, hp]
        simp
      · have hp : popCond T i top = false := decide_eq_false h
        rw [popLoop, if_neg h, List.takeWhile_cons, List.dropWhile_cons, hp]
        simp

/-- On a list along which the predicate can only switch from true to
false, `takeWhile` keeps exactly the satisfying members and `dropWhile`
exactly the others. -/
theorem mem_takeWhile_dropWhile_of_mono (p : Nat → Bool) :
    ∀ (l : List Nat), List.Pairwise (fun a b => p b = true → p a = true) l →
      ∀ x, (x ∈ l.takeWhile p ↔ (x ∈ l ∧ p x = true)) ∧
           (x ∈ l.dropWhile p ↔ (x ∈ l ∧ p x = false)) := by
  intro l
  induction l with
  | nil => simp
  | cons a l ih =>
      intro hpw x
      obtain ⟨ha, hpl⟩ := List.pairwise_cons.mp hpw
      obtain ⟨iht, ihd⟩ := ih hpl x
      by_cases hpa : p a = true
      · rw [List.takeWhile_cons, List.dropWhile_cons, if_pos hpa, if_pos hpa]
        constructor
        · simp only [List.mem_cons, iht]
          constructor
          · rintro (rfl | ⟨hx, hpx⟩)
            · exact ⟨Or.inl rfl, hpa⟩
            · exact ⟨Or.inr hx, hpx⟩
          · rintro ⟨rfl | hx, hpx⟩
            · exact Or.inl rfl
            · exact Or.inr ⟨hx, hpx⟩
        · rw [ihd]
          simp only [List.mem_cons]
          constructor
          · rintro ⟨hx, hpx⟩
            exact ⟨Or.inr hx, hpx⟩
          · rintro ⟨rfl | hx, hpx⟩
            · rw [hpa] at hpx
              cases hpx
            · exact ⟨hx, hpx⟩
      · rw [List.takeWhile_cons, List.dropWhile_cons, if_neg hpa, if_neg hpa]
        have hpa' : p a = false := by
          cases hcase : p a
          · rfl
          · exact absurd hcase hpa
        constructor
        · simp only [List.not_mem_nil, false_iff, List.mem_cons]
          rintro ⟨rfl | hx, hpx⟩
          · exact hpa hpx
          · exact hpa (ha x hx hpx)
        · simp only [List.mem_cons]
          constructor
          · rintro (rfl | hx)
            · exact ⟨Or.inl rfl, hpa'⟩
            · refine ⟨Or.inr hx, ?_⟩
              cases hcase : p x
              · rfl
              · exact absurd (ha x hx hcase) hpa
          · rintro ⟨rfl | hx, hpx⟩
            · exact Or.inl rfl
            · exact Or.inr hx

/-- The first index above `k`, below `horizon`, with a strictly warmer
temperature (the spec-side notion "smallest index `j > i` with
`temperatures[j] > temperatures[i]`", searched up to `horizon`). -/
def firstWarmer (T : List Int) (horizon k : Nat) : Option Nat :=
  ((List.range horizon).filter fun j =>
    decide (k < j) && decide (T.getD k 0 < T.getD j 0)).head?

/-- No warmer index exists below a horizon that is at most `k + 1`. -/
theorem firstWarmer_none_of_le (T : List Int) (horizon k : Nat)
    (h : horizon ≤ k + 1) : firstWarmer T horizon k = none := by
  unfold firstWarmer
  have hnil : ((List.range horizon).filter fun j =>
      decide (k < j) && decide (T.getD k 0 < T.getD j 0)) = [] := by
    rw [List.filter_eq_nil_iff]
    intro a ha
    simp only [List.mem_range] at ha
    simp [show ¬ k < a by omega]
  rw [hnil]
  rfl

/-- A found warmer index survives extending the horizon by one. -/
theorem firstWarmer_succ_of_some (T : List Int) (i k j : Nat)
    (h : firstWarmer T i k = some j) : firstWarmer T (i + 1) k = some j := by
  unfold firstWarmer at h ⊢
  rw [List.range_succ, List.filter_append, List.head?_append, h]
  rfl

/-- If index `i` itself is not a warmer successor of `k`, extending the
horizon past `i` changes nothing. -/
theorem firstWarmer_succ_of_not (T : List Int) (i k : Nat)
    (h : ¬ (k < i ∧ T.getD k 0 < T.getD i 0)) :
    firstWarmer T (i + 1) k = firstWarmer T i k := by
  unfold firstWarmer
  rw [List.range_succ, List.filter_append]
  have hnil : ([i].filter fun j =>
      decide (k < j) && decide (T.getD k 0 < T.getD j 0)) = [] := by
    rw [List.filter_eq_nil_iff]
    intro a ha
    rw [List.mem_singleton] at ha
    subst ha
    intro hcon
    rw [Bool.and_eq_true, decide_eq_true_eq, decide_eq_true_eq] at hcon
    exact h hcon
  rw [hnil, List.append_nil]

/-- When no index in `(k, i)` is warmer but `i` is, the first warmer
index at horizon `i + 1` is exactly `i`. -/
theorem firstWarmer_succ_self (T : List Int) (i k : Nat) (hk : k < i)
    (ht : T.getD k 0 < T.getD i 0)
    (hnw : ∀ j, k < j → j < i → T.getD j 0 ≤ T.getD k 0) :
    firstWarmer T (i + 1) k = some i := by
  unfold firstWarmer
  apply PySpace.head_filter_range _ i
    (by rw [Bool.and_eq_true, decide_eq_true_eq, decide_eq_true_eq]
        exact ⟨hk, ht⟩)
    _ (i + 1) (by omega)
  intro m hm
  by_cases hkm : k < m
  · have hnot : ¬ T.getD k 0 < T.getD m 0 := not_lt.mpr (hnw m hkm hm)
    rw [decide_eq_false hnot, Bool.and_false]
  · rw [decide_eq_false hkm, Bool.false_and]

/-- A warmer successor below the horizon guarantees `firstWarmer` finds
one. -/
theorem firstWarmer_isSome (T : List Int) (i k j : Nat) (h1 : k < j)
    (h2 : j < i) (h3 : T.getD k 0 < T.getD j 0) :
    ∃ j0, firstWarmer T i k = some j0 := by
  unfold firstWarmer
  have hne : ((List.range i).filter fun j' =>
      decide (k < j') && decide (T.getD k 0 < T.getD j' 0)) ≠ [] := by
    intro hnil
    rw [List.filter_eq_nil_iff] at hnil
    exact hnil j (by rw [List.mem_range]; omega)
      (by rw [Bool.and_eq_true, decide_eq_true_eq, decide_eq_true_eq]
          exact ⟨h1, h3⟩)
  cases hcase : ((List.range i).filter fun j' =>
      decide (k < j') && decide (T.getD k 0 < T.getD j' 0)).head? with
  | none => exact absurd (List.head?_eq_none_iff.mp hcase) hne
  | some j0 => exact ⟨j0, rfl⟩

end Leetcode

namespace Leetcode

/-- No index strictly between `k` and `i` is warmer than `k`. -/
def noWarmerIn (T : List Int) (k i : Nat) : Prop :=
  ∀ j, k < j → j < i → T.getD j 0 ≤ T.getD k 0

/-- Invariant of the stack before processing index `i`: indices
decrease from the top, and the stack holds exactly the processed
indices that have not yet met a warmer successor. -/
def stackInv (T : List Int) (i : Nat) (st : List Nat) : Prop :=
  List.Pairwise (fun a b => b < a) st ∧
  ∀ k, k ∈ st ↔ (k < i ∧ noWarmerIn T k i)

/-- Invariant of the answer array before processing index `i`: each
cell holds the distance to the first warmer index found so far (0 when
none has shown up below the horizon `i`). -/
def ansInv (T : List Int) (i : Nat) (ans : List Nat) : Prop :=
  ans.length = T.length ∧
  ∀ k, k < T.length →
    ans.getD k 0 = ((firstWarmer T i k).map (fun j => j - k)).getD 0

/-- Processing one index preserves both invariants. -/
theorem dt_step (T : List Int) (i : Nat) (hi : i < T.length)
    (ans st : List Nat) (hst : stackInv T i st) (hans : ansInv T i ans) :
    ∀ ans' st', popLoop T i ans st = (ans', st') →
      stackInv T (i + 1) (i :: st') ∧ ansInv T (i + 1) ans' := by
  obtain ⟨hord, hchar⟩ := hst
  obtain ⟨hlen, hval⟩ := hans
  have hmono : List.Pairwise
      (fun a b => popCond T i b = true → popCond T i a = true) st := by
    refine List.Pairwise.imp_of_mem ?_ hord
    intro a b ha hb hba hpb
    have htab : T.getD a 0 ≤ T.getD b 0 :=
      ((hchar b).mp hb).2 a hba ((hchar a).mp ha).1
    have h1 : T.getD b 0 < T.getD i 0 := of_decide_eq_true hpb
    exact decide_eq_true (lt_of_le_of_lt htab h1)
  have htd := mem_takeWhile_dropWhile_of_mono (popCond T i) st hmono
  intro ans' st' heq
  rw [popLoop_eq, Prod.mk.injEq] at heq
  obtain ⟨h1, h2⟩ := heq
  subst h1
  subst h2
  constructor
  · constructor
    · rw [List.pairwise_cons]
      refine ⟨?_, List.Pairwise.sublist (List.dropWhile_sublist _) hord⟩
      intro a' ha'
      exact ((hchar a').mp ((htd a').2.mp ha').1).1
    · intro k
      rw [List.mem_cons]
      constructor
      · rintro (rfl | hk)
        · exact ⟨by omega, fun j hj1 hj2 => by omega⟩
        · obtain ⟨hkst, hpk⟩ := (htd k).2.mp hk
          obtain ⟨hki, hnw⟩ := (hchar k).mp hkst
          refine ⟨by omega, fun j hj1 hj2 => ?_⟩
          rcases Nat.lt_or_ge j i with hji | hji
          · exact hnw j hj1 hji
          · have hji' : j = i := by omega
            subst hji'
            exact not_lt.mp (of_decide_eq_false hpk)
      · rintro ⟨hki1, hnw⟩
        rcases Nat.lt_or_ge k i with hki | hki
        · right
          rw [(htd k).2]
          refine ⟨(hchar k).mpr ⟨hki, fun j hj1 hj2 => hnw j hj1 (by omega)⟩, ?_⟩
          exact decide_eq_false (not_lt.mpr (hnw i hki (by omega)))
        · left
          omega
  · constructor
    · rw [PySpace.foldl_set_length]
      exact hlen
    · intro k hk
      rw [PySpace.foldl_set_getD (fun k => i - k) _ ans k (by omega)]
      by_cases hmem : k ∈ st.takeWhile (popCond T i)
      · rw [if_pos hmem]
        obtain ⟨hkst, hpk⟩ := (htd k).1.mp hmem
        obtain ⟨hki, hnw⟩ := (hchar k).mp hkst
        have hw : T.getD k 0 < T.getD i 0 := of_decide_eq_true hpk
        rw [firstWarmer_succ_self T i k hki hw hnw]
        rfl
      · rw [if_neg hmem, hval k hk]
        rcases Nat.lt_or_ge k i with hki | hki
        · by_cases hkst : k ∈ st
          · have hpk : popCond T i k = false := by
              cases hcase : popCond T i k
              · rfl
              · exact absurd ((htd k).1.mpr ⟨hkst, hcase⟩) hmem
            rw [firstWarmer_succ_of_not T i k
              (fun hcon => (of_decide_eq_false hpk) hcon.2)]
          · have hnnw : ¬ noWarmerIn T k i := fun hnw =>
              hkst ((hchar k).mpr ⟨hki, hnw⟩)
            unfold noWarmerIn at hnnw
            push_neg at hnnw
            obtain ⟨j, hj1, hj2, hj3⟩ := hnnw
            obtain ⟨j0, hj0⟩ := firstWarmer_isSome T i k j hj1 hj2 hj3
            rw [firstWarmer_succ_of_some T i k j0 hj0, hj0]
        · rw [firstWarmer_none_of_le T (i + 1) k (by omega),
            firstWarmer_none_of_le T i k (by omega)]

end Leetcode

namespace Leetcode

/-- Running the outer loop from any state satisfying the invariants
yields the answer invariant at the full horizon. -/
theorem dtGo_inv (T : List Int) :
    ∀ (d i : Nat) (ans st : List Nat), T.length - i ≤ d → i ≤ T.length →
      stackInv T i st → ansInv T i ans →
      ansInv T T.length (dtGo T i ans st) := by
  intro d
  induction d with
  | zero =>
      intro i ans st hd hi hst hans
      have hieq : i = T.length := by omega
      rw [dtGo, dif_neg (by omega)]
      rwa [hieq] at hans
  | succ d ih =>
      intro i ans st hd hi hst hans
      by_cases hlt : i < T.length
      · rw [dtGo, dif_pos hlt]
        obtain ⟨h1, h2⟩ := dt_step T i hlt ans st hst hans
          (popLoop T i ans st).1 (popLoop T i ans st).2 rfl
        exact ih (i + 1) (popLoop T i ans st).1 (i :: (popLoop T i ans st).2)
          (by omega) (by omega) h1 h2
      · rw [dtGo, dif_neg hlt]
        have hieq : i = T.length := by omega
        rwa [hieq] at hans

/-- `dailyTemperatures` satisfies the answer invariant at the full
horizon. -/
theorem dailyTemperatures_ansInv (T : List Int) :
    ansInv T T.length (dailyTemperatures T) := by
  unfold dailyTemperatures
  apply dtGo_inv T T.length 0 _ _ (by omega) (by omega)
  · exact ⟨List.Pairwise.nil, fun k => by
      simp only [List.not_mem_nil, false_iff]
      rintro ⟨hk, -⟩
      omega⟩
  · refine ⟨by simp, fun k hk => ?_⟩
    rw [show firstWarmer T 0 k = none from rfl]
    rw [List.getD_eq_getElem?_getD, List.getElem?_replicate]
    simp [hk]

/-- At the full horizon, `firstWarmer` finds the least warmer index. -/
theorem firstWarmer_eq_some_of_least (T : List Int) (k j : Nat)
    (hkj : k < j) (hjl : j < T.length) (hwarm : T.getD k 0 < T.getD j 0)
    (hmin : ∀ m, k < m → m < j → T.getD m 0 ≤ T.getD k 0) :
    firstWarmer T T.length k = some j := by
  unfold firstWarmer
  apply PySpace.head_filter_range _ j
    (by rw [Bool.and_eq_true, decide_eq_true_eq, decide_eq_true_eq]
        exact ⟨hkj, hwarm⟩)
    _ T.length hjl
  intro m hm
  by_cases hkm : k < m
  · have hnot : ¬ T.getD k 0 < T.getD m 0 := not_lt.mpr (hmin m hkm hm)
    rw [decide_eq_false hnot, Bool.and_false]
  · rw [decide_eq_false hkm, Bool.false_and]

/-- At the full horizon, `firstWarmer` is `none` when no later index is
warmer. -/
theorem firstWarmer_eq_none_of_none (T : List Int) (k : Nat)
    (hnone : ∀ j, k < j → j < T.length → T.getD j 0 ≤ T.getD k 0) :
    firstWarmer T T.length k = none := by
  unfold firstWarmer
  have hnil : ((List.range T.length).filter fun j =>
      decide (k < j) && decide (T.getD k 0 < T.getD j 0)) = [] := by
    rw [List.filter_eq_nil_iff]
    intro a ha
    rw [List.mem_range] at ha
    intro hcon
    rw [Bool.and_eq_true, decide_eq_true_eq, decide_eq_true_eq] at hcon
    exact absurd hcon.2 (not_lt.mpr (hnone a hcon.1 ha))
  rw [hnil]
  rfl

/-- C9: `dailyTemperatures` returns a list of the same length as its
input in which entry `i` is `j - i` for the smallest index `j > i` with
`temperatures[j] > temperatures[i]`, and `0` when no such index
exists. -/
theorem dailyTemperatures_correct (T : List Int) :
    (dailyTemperatures T).length = T.length ∧
    ∀ i, i < T.length →
      ((∀ j, i < j → j < T.length → T.getD j 0 ≤ T.getD i 0) →
        (dailyTemperatures T).getD i 0 = 0) ∧
      (∀ j, i < j → j < T.length → T.getD i 0 < T.getD j 0 →
        (∀ m, i < m → m < j → T.getD m 0 ≤ T.getD i 0) →
        (dailyTemperatures T).getD i 0 = j - i) := by
  obtain ⟨hlen, hval⟩ := dailyTemperatures_ansInv T
  refine ⟨hlen, fun i hi => ⟨fun hnone => ?_, fun j hij hjl hw hmin => ?_⟩⟩
  · rw [hval i hi, firstWarmer_eq_none_of_none T i hnone]
    rfl
  · rw [hval i hi, firstWarmer_eq_some_of_least T i j hij hjl hw hmin]
    rfl

/-- Witness for C9 on the file's own example
`[73, 74, 75, 71, 69, 72, 76, 73]`: the answer at index 2 is `6 - 2`,
since index 6 is the first warmer day after index 2. -/
theorem dailyTemperatures_correct_witness :
    (dailyTemperatures [73, 74, 75, 71, 69, 72, 76, 73]).getD 2 0 = 6 - 2 :=
  ((dailyTemperatures_correct [73, 74, 75, 71, 69, 72, 76, 73]).2 2
      (by decide)).2 6 (by decide) (by decide) (by decide)
    (by
      intro m h1 h2
      have hm : m = 3 ∨ m = 4 ∨ m = 5 := by omega
      rcases hm with rfl | rfl | rfl <;> decide)

end Leetcode
